import Mathlib

set_option maxRecDepth 4000

/-!
Verification of the duplicate-file detection engine
(src/file-organization-automation/src/duplicate_file_detector.py).

The engine hashes file contents with MD5 (`hashlib.md5`, fed in 4096-byte
chunks, which is the same function of the whole content), buckets the
resulting records by digest, filters buckets of size at least two into
duplicate groups, derives statistics, and deletes all but one member per
group through an injected deletion backend (send2trash or unlink).

The development below embeds:
- MD5 itself (RFC 1321), executable over byte lists, since grouping
  correctness claims hinge on the digest function;
- the detector state (`file_hashes`, `duplicates`, `stats` dictionaries)
  and the methods `calculate_file_hash`, `scan_for_duplicates`,
  `get_duplicate_summary`, `delete_duplicates`.

Machine integers do not arise: Python integers are unbounded, so `Nat`
is the faithful carrier; MD5's 32-bit words are taken mod 2^32 explicitly.
-/

/-- Truncation to a 32-bit word. -/
def w32 (x : Nat) : Nat := x % 4294967296

/-- Bitwise complement within 32 bits (for `x < 2^32` this is xor with `0xffffffff`). -/
def wnot (x : Nat) : Nat := 4294967295 - w32 x

/-- Left-rotation of a 32-bit word by `n` (for `0 < n < 32`). -/
def rotl32 (x n : Nat) : Nat := ((x <<< n) % 4294967296) ||| ((x % 4294967296) >>> (32 - n))

/-- The 64 MD5 round constants `floor(2^32 * abs(sin(i+1)))` of RFC 1321. -/
def md5K : List Nat :=
  [0xd76aa478, 0xe8c7b756, 0x242070db, 0xc1bdceee, 0xf57c0faf, 0x4787c62a, 0xa8304613,
   0xfd469501, 0x698098d8, 0x8b44f7af, 0xffff5bb1, 0x895cd7be, 0x6b901122, 0xfd987193,
   0xa679438e, 0x49b40821, 0xf61e2562, 0xc040b340, 0x265e5a51, 0xe9b6c7aa, 0xd62f105d,
   0x2441453, 0xd8a1e681, 0xe7d3fbc8, 0x21e1cde6, 0xc33707d6, 0xf4d50d87, 0x455a14ed,
   0xa9e3e905, 0xfcefa3f8, 0x676f02d9, 0x8d2a4c8a, 0xfffa3942, 0x8771f681, 0x6d9d6122,
   0xfde5380c, 0xa4beea44, 0x4bdecfa9, 0xf6bb4b60, 0xbebfbc70, 0x289b7ec6, 0xeaa127fa,
   0xd4ef3085, 0x4881d05, 0xd9d4d039, 0xe6db99e5, 0x1fa27cf8, 0xc4ac5665, 0xf4292244,
   0x432aff97, 0xab9423a7, 0xfc93a039, 0x655b59c3, 0x8f0ccc92, 0xffeff47d, 0x85845dd1,
   0x6fa87e4f, 0xfe2ce6e0, 0xa3014314, 0x4e0811a1, 0xf7537e82, 0xbd3af235, 0x2ad7d2bb,
   0xeb86d391]

/-- The 64 MD5 per-round left-rotation amounts of RFC 1321. -/
def md5S : List Nat :=
  [7, 12, 17, 22, 7, 12, 17, 22, 7, 12, 17, 22, 7, 12, 17, 22,
   5, 9, 14, 20, 5, 9, 14, 20, 5, 9, 14, 20, 5, 9, 14, 20,
   4, 11, 16, 23, 4, 11, 16, 23, 4, 11, 16, 23, 4, 11, 16, 23,
   6, 10, 15, 21, 6, 10, 15, 21, 6, 10, 15, 21, 6, 10, 15, 21]

def kAt (i : Nat) : Nat := md5K.getD i 0

def sAt (i : Nat) : Nat := md5S.getD i 0

/-- One MD5 step: state `(a, b, c, d)`, step index `i`, message-word accessor `M`. -/
def md5round (M : Nat → Nat) (st : Nat × Nat × Nat × Nat) (i : Nat) : Nat × Nat × Nat × Nat :=
  let a := st.1
  let b := st.2.1
  let c := st.2.2.1
  let d := st.2.2.2
  let f :=
    if i < 16 then (b &&& c) ||| (wnot b &&& d)
    else if i < 32 then (d &&& b) ||| (wnot d &&& c)
    else if i < 48 then b ^^^ c ^^^ d
    else c ^^^ (b ||| wnot d)
  let g :=
    if i < 16 then i
    else if i < 32 then (5 * i + 1) % 16
    else if i < 48 then (3 * i + 5) % 16
    else (7 * i) % 16
  let t := rotl32 ((a + f + kAt i + M g) % 4294967296) (sAt i)
  (d, (b + t) % 4294967296, b, c)

/-- Split a list into chunks of 4; fuel-structured so it reduces in the kernel. -/
def chunk4Aux : Nat → List Nat → List (List Nat)
  | 0, _ => []
  | _ + 1, [] => []
  | fuel + 1, x :: xs => (x :: xs).take 4 :: chunk4Aux fuel ((x :: xs).drop 4)

def chunk4 (l : List Nat) : List (List Nat) := chunk4Aux l.length l

/-- Split a list into chunks of 64; fuel-structured so it reduces in the kernel. -/
def chunk64Aux : Nat → List Nat → List (List Nat)
  | 0, _ => []
  | _ + 1, [] => []
  | fuel + 1, x :: xs => (x :: xs).take 64 :: chunk64Aux fuel ((x :: xs).drop 64)

def chunk64 (l : List Nat) : List (List Nat) := chunk64Aux l.length l

/-- Little-endian 32-bit word from up to four bytes. -/
def wordLE (bs : List Nat) : Nat :=
  bs.getD 0 0 + 256 * bs.getD 1 0 + 65536 * bs.getD 2 0 + 16777216 * bs.getD 3 0

/-- The sixteen little-endian message words of a 64-byte block. -/
def blockWords (block : List Nat) : List Nat := (chunk4 block).map wordLE

/-- MD5 compression of one 64-byte block into the running state. -/
def processBlock (st : Nat × Nat × Nat × Nat) (block : List Nat) : Nat × Nat × Nat × Nat :=
  let r := (List.range 64).foldl (md5round fun g => (blockWords block).getD g 0) st
  ((st.1 + r.1) % 4294967296, (st.2.1 + r.2.1) % 4294967296,
   (st.2.2.1 + r.2.2.1) % 4294967296, (st.2.2.2 + r.2.2.2) % 4294967296)

/-- Little-endian byte expansion of `x` to exactly `n` bytes (truncating). -/
def leBytes : Nat → Nat → List Nat
  | 0, _ => []
  | n + 1, x => x % 256 :: leBytes n (x / 256)

/-- MD5 padding: append `0x80`, zero-fill to 56 mod 64, then the 64-bit
little-endian bit length. -/
def md5pad (msg : List Nat) : List Nat :=
  msg ++ 128 :: List.replicate ((120 - (msg.length + 1) % 64) % 64) 0 ++ leBytes 8 (8 * msg.length)

/-- The four final MD5 state words of a byte string. -/
def md5words (msg : List Nat) : Nat × Nat × Nat × Nat :=
  (chunk64 (md5pad msg)).foldl processBlock (0x67452301, 0xefcdab89, 0x98badcfe, 0x10325476)

/-- The MD5 digest of a byte string, encoded as the little-endian value of its
sixteen digest bytes. The source's `calculate_file_hash` returns
`hexdigest()`, the hexadecimal rendering of those same sixteen bytes; the
encoding is injective, so bucketing by this number is bucketing by the
source's hex string. -/
def md5 (msg : List Nat) : Nat :=
  (md5words msg).1 + 4294967296 * (md5words msg).2.1 +
    18446744073709551616 * (md5words msg).2.2.1 +
    79228162514264337593543950336 * (md5words msg).2.2.2

def wangM1 : List Nat :=
  [209, 49, 221, 2, 197, 230, 238, 196, 105, 61, 154, 6, 152, 175, 249, 92, 47, 202, 181, 135, 18, 70, 126, 171, 64, 4, 88, 62, 184, 251, 127, 137, 85, 173, 52, 6, 9, 244, 179, 2, 131, 228, 136, 131, 37, 113, 65, 90, 8, 81, 37, 232, 247, 205, 201, 159, 217, 29, 189, 242, 128, 55, 60, 91, 216, 130, 62, 49, 86, 52, 143, 91, 174, 109, 172, 212, 54, 201, 25, 198, 221, 83, 226, 180, 135, 218, 3, 253, 2, 57, 99, 6, 210, 72, 205, 160, 233, 159, 51, 66, 15, 87, 126, 232, 206, 84, 182, 112, 128, 168, 13, 30, 198, 152, 33, 188, 182, 168, 131, 147, 150, 249, 101, 43, 111, 247, 42, 112]

def wangM2 : List Nat :=
  [209, 49, 221, 2, 197, 230, 238, 196, 105, 61, 154, 6, 152, 175, 249, 92, 47, 202, 181, 7, 18, 70, 126, 171, 64, 4, 88, 62, 184, 251, 127, 137, 85, 173, 52, 6, 9, 244, 179, 2, 131, 228, 136, 131, 37, 241, 65, 90, 8, 81, 37, 232, 247, 205, 201, 159, 217, 29, 189, 114, 128, 55, 60, 91, 216, 130, 62, 49, 86, 52, 143, 91, 174, 109, 172, 212, 54, 201, 25, 198, 221, 83, 226, 52, 135, 218, 3, 253, 2, 57, 99, 6, 210, 72, 205, 160, 233, 159, 51, 66, 15, 87, 126, 232, 206, 84, 182, 112, 128, 40, 13, 30, 198, 152, 33, 188, 182, 168, 131, 147, 150, 249, 101, 171, 111, 247, 42, 112]

/-! ### The filesystem interface

The enumerator (`rglob` / `iterdir` filtered by `is_file`) and the file
reads are the engine's view of the filesystem.  A filesystem is a root
flag plus the regular files the walk would yield, in walk order.
`pathlib`'s glob machinery checks `is_dir` on the root and silently yields
nothing when the root is missing or not a directory, while `iterdir`
raises `FileNotFoundError`/`NotADirectoryError`; `enumerate` reflects
both.  A file's `readable` flag says whether the chunked `open`/`read` in
`calculate_file_hash` succeeds; `stat().st_size` of a regular file is the
byte length of its content. -/

/-- A regular file as the walk yields it: path, byte content, mtime, and
whether reading it succeeds. -/
structure FSFile where
  path : String
  content : List Nat
  modified : Nat
  readable : Bool
deriving DecidableEq, Repr

/-- A filesystem: whether the search root exists and is a directory, the
regular files below it in recursive walk order, and the subset directly in
the root in `iterdir` order. -/
structure FS where
  rootIsDir : Bool
  files : List FSFile
  topFiles : List FSFile
deriving DecidableEq, Repr

/-- A Python exception escaping the engine (the engine catches read errors
itself; an enumeration error on a bad root is the one it lets through). -/
inductive PyErr where
  | fileNotFoundError
deriving DecidableEq, Repr

/-- File enumeration of `scan_for_duplicates` lines 55-58: `rglob` when
`include_subdirs`, silently empty on a bad root; `iterdir` otherwise,
raising on a bad root. -/
def enumerate (fs : FS) (include_subdirs : Bool) : Except PyErr (List FSFile) :=
  if include_subdirs then Except.ok (if fs.rootIsDir then fs.files else [])
  else if fs.rootIsDir then Except.ok fs.topFiles else Except.error PyErr.fileNotFoundError

/-! ### The detector state -/

/-- The `file_info` dictionary built at lines 70-74: path, size, mtime. -/
structure FileRec where
  path : String
  size : Nat
  modified : Nat
deriving DecidableEq, Repr

/-- Placeholder record for head/last of a list (the source would raise
`IndexError` on an empty group, which cannot occur in its flow). -/
def noRec : FileRec := ⟨"", 0, 0⟩

/-- `stat().st_size` of a regular file: the length of its byte content. -/
def fsSize (f : FSFile) : Nat := f.content.length

def recOf (f : FSFile) : FileRec := ⟨f.path, fsSize f, f.modified⟩

/-- The `self.stats` dictionary initialised in `__init__` (lines 26-34). -/
structure DetStats where
  total_files : Nat
  unique_files : Nat
  duplicate_groups : Nat
  total_duplicates : Nat
  space_wasted : Nat
  files_deleted : Nat
  space_recovered : Nat
deriving DecidableEq, Repr

def initStats : DetStats := ⟨0, 0, 0, 0, 0, 0, 0⟩

/-- The mutable state of a `DuplicateFileDetector` instance: the
`file_hashes` defaultdict (an insertion-ordered association from digest to
record list), the `duplicates` mapping, and `stats`.  The directory paths
held by the instance do not influence any claim and are carried by the
`FS` argument instead.  `__init__` performs no validation of the search
directory. -/
structure DetectorState where
  file_hashes : List (Nat × List FileRec)
  duplicates : List (Nat × List FileRec)
  stats : DetStats
deriving DecidableEq, Repr

def initState : DetectorState := ⟨[], [], initStats⟩

/-- `calculate_file_hash` (lines 36-47): the chunked MD5 of the file's
content on success, `None` when any read raises `OSError`; no partial
digest can be returned.  A hex digest string is never empty, so the
`if file_hash:` test at line 69 is exactly the `some` test. -/
def calculate_file_hash (f : FSFile) : Option Nat :=
  if f.readable then some (md5 f.content) else none

/-- `self.file_hashes[file_hash].append(file_info)` on the insertion-ordered
dict: append to the existing bucket in place, or add a new key at the end. -/
def bucketAppend : List (Nat × List FileRec) → Nat → FileRec → List (Nat × List FileRec)
  | [], k, v => [(k, [v])]
  | (k1, vs) :: rest, k, v =>
    if k1 = k then (k1, vs ++ [v]) :: rest else (k1, vs) :: bucketAppend rest k v

/-- Lookup of a digest's bucket (first entry with that key; keys are unique
by construction). -/
def bucketOf : List (Nat × List FileRec) → Nat → List FileRec
  | [], _ => []
  | (k1, vs) :: rest, k => if k1 = k then vs else bucketOf rest k

/-- The body of the per-file loop at lines 64-75. -/
def hashStep (d : List (Nat × List FileRec)) (f : FSFile) : List (Nat × List FileRec) :=
  match calculate_file_hash f with
  | some h => bucketAppend d h (recOf f)
  | none => d

def insertAll (d : List (Nat × List FileRec)) (files : List FSFile) : List (Nat × List FileRec) :=
  files.foldl hashStep d

/-- `scan_for_duplicates` (lines 49-95).  Note the state handling of the
source: `file_hashes` is appended to (never cleared), `duplicates` is
reassigned as the filter of the whole dict, `total_files` and the other
counters are reassigned, while `space_wasted` is incremented (`+=`) on top
of its previous value.  `files[0]['size']` is the head record's size. -/
def scan_for_duplicates (s : DetectorState) (fs : FS) (include_subdirs : Bool) :
    Except PyErr DetectorState :=
  match enumerate fs include_subdirs with
  | Except.error e => Except.error e
  | Except.ok files =>
    let fh := insertAll s.file_hashes files
    let dups := fh.filter fun p => 1 < p.2.length
    Except.ok
      { file_hashes := fh
        duplicates := dups
        stats :=
          { total_files := files.length
            unique_files := fh.length
            duplicate_groups := dups.length
            total_duplicates := (dups.map fun p => p.2.length - 1).sum
            space_wasted := s.stats.space_wasted +
              (dups.map fun p => (p.2.headD noRec).size * (p.2.length - 1)).sum
            files_deleted := s.stats.files_deleted
            space_recovered := s.stats.space_recovered } }

/-- The summary dictionary of `get_duplicate_summary` (lines 97-107), minus
the floating-point `space_wasted_mb` convenience field, which is just a
rescaling of `space_wasted_bytes`.  `max(...)` over the groups when
`duplicates` is nonempty, else `0`, equals a `max`-fold from `0`. -/
structure DupSummary where
  total_files : Nat
  unique_files : Nat
  duplicate_groups : Nat
  total_duplicates : Nat
  space_wasted_bytes : Nat
  largest_duplicate_group : Nat
deriving DecidableEq, Repr

def get_duplicate_summary (s : DetectorState) : DupSummary :=
  ⟨s.stats.total_files, s.stats.unique_files, s.stats.duplicate_groups,
   s.stats.total_duplicates, s.stats.space_wasted,
   (s.duplicates.map fun p => p.2.length).foldl max 0⟩

/-! ### Resolution -/

/-- Stable insertion preserving existing order among equal keys. -/
def insertStable (r : FileRec) : List FileRec → List FileRec
  | [] => [r]
  | x :: xs => if r.modified ≤ x.modified then r :: x :: xs else x :: insertStable r xs

/-- `sorted(files, key=lambda x: x['modified'])` (line 172): Python's sort
is stable, so equal mtimes keep the bucket's existing (insertion) order;
any stable sort by the key computes the same list. -/
def sortByModified : List FileRec → List FileRec
  | [] => []
  | x :: xs => insertStable x (sortByModified xs)

/-- The last element of a list (`sorted_files[-1]`), `noRec` on the empty
list (where the source would raise `IndexError`). -/
def lastD : List FileRec → FileRec
  | [] => noRec
  | [x] => x
  | _ :: y :: ys => lastD (y :: ys)

/-- The kept file of a group (lines 174-180): head of the sorted bucket
under `keep_oldest`, its last element otherwise. -/
def keeperOf (keep_oldest : Bool) (files : List FileRec) : FileRec :=
  if keep_oldest then (sortByModified files).headD noRec
  else lastD (sortByModified files)

/-- The removal candidates of a group: `sorted_files[1:]` under
`keep_oldest`, `sorted_files[:-1]` otherwise. -/
def candsOf (keep_oldest : Bool) (files : List FileRec) : List FileRec :=
  if keep_oldest then (sortByModified files).tail
  else (sortByModified files).dropLast

/-- The injected deletion backend: `send2trash.send2trash(str(path))` or
`Path.unlink()`, either succeeding or raising an exception rendered as a
string (the `except Exception as e` at line 210 catches anything). -/
def Backend : Type := String → Except String Unit

def delOk (backend : Backend) (r : FileRec) : Bool :=
  match backend r.path with
  | Except.ok _ => true
  | Except.error _ => false

def delErr (backend : Backend) (r : FileRec) : Option (FileRec × String) :=
  match backend r.path with
  | Except.ok _ => none
  | Except.error e => some (r, e)

/-- Accumulator of the deletion loops: `deleted_files`, the per-file error
reports printed at line 212 (the record and its exception text), the trace
of backend invocations, `total_space_recovered`, and the number of
successful deletions added to `stats['files_deleted']`. -/
structure DelAcc where
  deleted : List FileRec
  errors : List (FileRec × String)
  attempts : List FileRec
  recovered : Nat
  nDeleted : Nat
deriving DecidableEq, Repr

def initAcc : DelAcc := ⟨[], [], [], 0, 0⟩

/-- One iteration of the inner loop at lines 189-214: invoke the backend;
on success record the file and its size, on any exception record the error
and continue. -/
def delStep (backend : Backend) (a : DelAcc) (r : FileRec) : DelAcc :=
  match backend r.path with
  | Except.ok _ =>
    { a with attempts := a.attempts ++ [r], deleted := a.deleted ++ [r],
             recovered := a.recovered + r.size, nDeleted := a.nDeleted + 1 }
  | Except.error e =>
    { a with attempts := a.attempts ++ [r], errors := a.errors ++ [(r, e)] }

def processCands (backend : Backend) (a : DelAcc) (cands : List FileRec) : DelAcc :=
  cands.foldl (delStep backend) a

/-- The observable outcome of `delete_duplicates`: its return value (`None`
on the early `return` at line 161, else `deleted_files`), the updated
instance state, the error reports, and the backend-invocation trace. -/
structure DelRun where
  result : Option (List FileRec)
  state : DetectorState
  errors : List (FileRec × String)
  attempts : List FileRec
deriving DecidableEq, Repr

/-- `delete_duplicates` (lines 157-224): early `None` return when there are
no duplicate groups; otherwise process every group, sort it by mtime,
keep one member per the policy, attempt deletion of each remaining member
independently, then overwrite `stats['space_recovered']` with this run's
total while `stats['files_deleted']` accumulates. -/
def delete_duplicates (s : DetectorState) (keep_oldest : Bool) (backend : Backend) : DelRun :=
  if s.duplicates = [] then ⟨none, s, [], []⟩
  else
    let out := s.duplicates.foldl (fun a p => processCands backend a (candsOf keep_oldest p.2)) initAcc
    ⟨some out.deleted,
     { s with stats := { s.stats with
         files_deleted := s.stats.files_deleted + out.nDeleted,
         space_recovered := out.recovered } },
     out.errors, out.attempts⟩

/-! ### Derived notions used by the claims -/

/-- Digests of the files that fingerprint successfully, in walk order. -/
def digestsOf (files : List FSFile) : List Nat :=
  (files.filter fun f => f.readable).map fun f => md5 f.content

/-- The records of the successfully fingerprinted files with digest `h`, in
walk order. -/
def recordsWithDigest (files : List FSFile) (h : Nat) : List FileRec :=
  (files.filter fun f => f.readable && (md5 f.content == h)).map recOf

def dedupStep (ks : List Nat) (k : Nat) : List Nat := if k ∈ ks then ks else ks ++ [k]

/-- First-occurrence deduplication, mirroring dict key insertion order. -/
def firstDedup (l : List Nat) : List Nat := l.foldl dedupStep []

/-- All removal candidates of all groups, in processing order. -/
def allCands (keep_oldest : Bool) (dups : List (Nat × List FileRec)) : List FileRec :=
  dups.flatMap fun p => candsOf keep_oldest p.2

/-- The scan result on a fresh detector, or the fresh state if the scan
raised. -/
def scanOrEmpty (fs : FS) : DetectorState :=
  match scan_for_duplicates initState fs true with
  | Except.ok s => s
  | Except.error _ => initState

/-- Success test for a scan attempt. -/
def scanOk (e : Except PyErr DetectorState) : Bool :=
  match e with
  | Except.ok _ => true
  | Except.error _ => false
/-- The key list of the hash dictionary, in insertion order. -/
def keysOf (d : List (Nat × List FileRec)) : List Nat := d.map fun p => p.1

/-- Lexicographic order on code-point sequences, executable. -/
def lexLeN : List Nat → List Nat → Bool
  | [], _ => true
  | _ :: _, [] => false
  | a :: as, b :: bs => if a < b then true else if b < a then false else lexLeN as bs

/-- Lexical comparison of paths by their character code points. -/
def pathLe (s t : String) : Bool :=
  lexLeN (s.data.map Char.toNat) (t.data.map Char.toNat)

/-- Modelled from the spec, section 4.4: "members are sorted by
modifiedTime ascending; ties broken by lexical comparison of path".  This
definition follows the spec's words, not the source, and exists only to be
compared with the source's `sortByModified` (which breaks ties by the
bucket's insertion order instead). -/
def specInsert (r : FileRec) : List FileRec → List FileRec
  | [] => [r]
  | x :: xs =>
    if r.modified < x.modified ∨ (r.modified = x.modified ∧ pathLe r.path x.path) then
      r :: x :: xs
    else x :: specInsert r xs

/-- Modelled from the spec, section 4.4: insertion sort under the
spec's (modifiedTime, lexical path) order. -/
def specResolutionSort : List FileRec → List FileRec
  | [] => []
  | x :: xs => specInsert x (specResolutionSort xs)

/-! ### Claim propositions and concrete fixtures -/

/-- The separation property claimed for the scanner: files with differing
byte content never share a duplicate group. -/
def SeparationClaim : Prop :=
  ∀ (fs : FS) (s2 : DetectorState), scan_for_duplicates initState fs true = Except.ok s2 →
    ∀ f ∈ fs.files, ∀ g ∈ fs.files, f.content ≠ g.content →
      ∀ p ∈ s2.duplicates, ¬(recOf f ∈ p.2 ∧ recOf g ∈ p.2)

/-- The uniform-size invariant claimed for finalized groups: all members of
any duplicate group have identical size. -/
def UniformSizeClaim : Prop :=
  ∀ (fs : FS) (s2 : DetectorState), scan_for_duplicates initState fs true = Except.ok s2 →
    ∀ p ∈ s2.duplicates, ∀ r ∈ p.2, ∀ q ∈ p.2, r.size = q.size

/-- The configuration-error behaviour claimed for a bad root: every scan
attempt on a root that does not exist or is not a directory fails. -/
def ConfigErrorClaim : Prop :=
  ∀ fs : FS, fs.rootIsDir = false → ∀ inc : Bool,
    scanOk (scan_for_duplicates initState fs inc) = false

def wangFile1 : FSFile := ⟨"a.bin", wangM1, 0, true⟩

def wangFile2 : FSFile := ⟨"b.bin", wangM2, 0, true⟩

/-- A directory holding the two colliding 128-byte files. -/
def wangFS : FS := ⟨true, [wangFile1, wangFile2], [wangFile1, wangFile2]⟩

/-- A directory with one readable one-byte file, for the rescan experiment. -/
def oneFileFS : FS := ⟨true, [⟨"a.txt", [0], 0, true⟩], [⟨"a.txt", [0], 0, true⟩]⟩

def raRec : FileRec := ⟨"a.txt", 1, 5⟩

def rbRec : FileRec := ⟨"b.txt", 1, 5⟩

/-- A detector state holding one duplicate group whose two members share a
modification time but arrived in non-lexical order. -/
def tieState : DetectorState := ⟨[(7, [rbRec, raRec])], [(7, [rbRec, raRec])], initStats⟩

def okBackend : Backend := fun _ => Except.ok ()

/-- A backend that fails exactly on the path b.txt (scenario B of the
spec: one group member vanished before apply). -/
def failBackend : Backend :=
  fun p => if p = "b.txt" then Except.error "simulated deletion failure" else Except.ok ()

def trioRec1 : FileRec := ⟨"a.txt", 10, 1⟩

def trioRec2 : FileRec := ⟨"b.txt", 10, 2⟩

def trioRec3 : FileRec := ⟨"c.txt", 10, 3⟩

/-- A detector state holding one three-member duplicate group. -/
def trioState : DetectorState :=
  ⟨[(9, [trioRec1, trioRec2, trioRec3])], [(9, [trioRec1, trioRec2, trioRec3])], initStats⟩

/-- A directory with two identical files, a distinct third and an
unreadable fourth. -/
def sampleFS : FS :=
  ⟨true,
   [⟨"x.txt", [1], 3, true⟩, ⟨"y.txt", [1], 1, true⟩, ⟨"z.txt", [2], 2, true⟩,
    ⟨"w.txt", [3], 4, false⟩],
   []⟩

/-- A root path that does not exist (or is not a directory). -/
def badRootFS : FS := ⟨false, [], []⟩

instance {e a : Type} [DecidableEq e] [DecidableEq a] : DecidableEq (Except e a)
  | Except.ok x, Except.ok y =>
    match decEq x y with
    | isTrue h => isTrue (congrArg Except.ok h)
    | isFalse h => isFalse fun hc => h (Except.ok.inj hc)
  | Except.ok _, Except.error _ => isFalse fun hc => Except.noConfusion hc
  | Except.error _, Except.ok _ => isFalse fun hc => Except.noConfusion hc
  | Except.error d, Except.error f =>
    match decEq d f with
    | isTrue h => isTrue (congrArg Except.error h)
    | isFalse h => isFalse fun hc => h (Except.error.inj hc)

/-- The state after scanning the same filesystem a second time on the same
instance (no error possible when the first scan succeeded). -/
def rescanState (fs : FS) : DetectorState :=
  match scan_for_duplicates (scanOrEmpty fs) fs true with
  | Except.ok s => s
  | Except.error _ => initState

/-! ### General lemmas about the embedding -/

theorem processBlock_bound (st : Nat × Nat × Nat × Nat) (blk : List Nat) :
    (processBlock st blk).1 < 4294967296 ∧ (processBlock st blk).2.1 < 4294967296 ∧
      (processBlock st blk).2.2.1 < 4294967296 ∧ (processBlock st blk).2.2.2 < 4294967296 := by
  refine ⟨?_, ?_, ?_, ?_⟩ <;> exact Nat.mod_lt _ (by norm_num)

theorem foldl_processBlock_bound (l : List (List Nat)) (st : Nat × Nat × Nat × Nat)
    (h : st.1 < 4294967296 ∧ st.2.1 < 4294967296 ∧
      st.2.2.1 < 4294967296 ∧ st.2.2.2 < 4294967296) :
    (l.foldl processBlock st).1 < 4294967296 ∧ (l.foldl processBlock st).2.1 < 4294967296 ∧
      (l.foldl processBlock st).2.2.1 < 4294967296 ∧
      (l.foldl processBlock st).2.2.2 < 4294967296 := by
  induction l generalizing st with
  | nil => exact h
  | cons b bs ih => exact ih _ (processBlock_bound st b)

/-- The digest value always fits in 128 bits: MD5 maps unboundedly many
contents into a finite digest space. -/
theorem md5_lt (msg : List Nat) : md5 msg < 340282366920938463463374607431768211456 := by
  have h := foldl_processBlock_bound (chunk64 (md5pad msg))
    (0x67452301, 0xefcdab89, 0x98badcfe, 0x10325476) (by norm_num)
  unfold md5 md5words
  unfold md5words at h
  omega

theorem bucketOf_bucketAppend_self (d : List (Nat × List FileRec)) (k : Nat) (v : FileRec) :
    bucketOf (bucketAppend d k v) k = bucketOf d k ++ [v] := by
  induction d with
  | nil => simp [bucketAppend, bucketOf]
  | cons p rest ih =>
    obtain ⟨k1, vs⟩ := p
    by_cases hk : k1 = k
    · subst hk
      simp [bucketAppend, bucketOf]
    · simp [bucketAppend, bucketOf, hk, ih]

theorem bucketOf_bucketAppend_ne (d : List (Nat × List FileRec)) (k : Nat) (v : FileRec)
    (h2 : Nat) (hne : h2 ≠ k) : bucketOf (bucketAppend d k v) h2 = bucketOf d h2 := by
  have hne2 : ¬k = h2 := fun h => hne h.symm
  induction d with
  | nil => simp [bucketAppend, bucketOf, hne2]
  | cons p rest ih =>
    obtain ⟨k1, vs⟩ := p
    by_cases hk : k1 = k
    · subst hk
      simp [bucketAppend, bucketOf, hne2]
    · by_cases hk2 : k1 = h2 <;> simp [bucketAppend, bucketOf, hk, hk2, ih, hne]

theorem keysOf_bucketAppend (d : List (Nat × List FileRec)) (k : Nat) (v : FileRec) :
    keysOf (bucketAppend d k v) =
      if k ∈ keysOf d then keysOf d else keysOf d ++ [k] := by
  induction d with
  | nil => simp [bucketAppend, keysOf]
  | cons p rest ih =>
    obtain ⟨k1, vs⟩ := p
    by_cases hk : k1 = k
    · subst hk
      simp [bucketAppend, keysOf]
    · have hk2 : ¬k = k1 := fun h => hk h.symm
      have hmem : k ∈ keysOf ((k1, vs) :: rest) ↔ k ∈ keysOf rest := by
        simp [keysOf, hk2]
      have hcons : keysOf ((k1, vs) :: rest) = k1 :: keysOf rest := rfl
      have hcons2 : keysOf (bucketAppend ((k1, vs) :: rest) k v) =
          k1 :: keysOf (bucketAppend rest k v) := by
        simp [bucketAppend, hk, keysOf]
      by_cases hm : k ∈ keysOf rest <;>
        simp [hcons2, hcons, hmem, hm, ih, hk2]

theorem insertAll_cons (d : List (Nat × List FileRec)) (f : FSFile) (fs : List FSFile) :
    insertAll d (f :: fs) = insertAll (hashStep d f) fs := rfl

theorem digestsOf_cons (f : FSFile) (fs : List FSFile) :
    digestsOf (f :: fs) =
      if f.readable then md5 f.content :: digestsOf fs else digestsOf fs := by
  by_cases hr : f.readable <;> simp [digestsOf, List.filter_cons, hr]

theorem recordsWithDigest_cons (f : FSFile) (fs : List FSFile) (h : Nat) :
    recordsWithDigest (f :: fs) h =
      if f.readable ∧ md5 f.content = h then recOf f :: recordsWithDigest fs h
      else recordsWithDigest fs h := by
  by_cases hr : f.readable
  · by_cases hh : md5 f.content = h <;>
      simp [recordsWithDigest, List.filter_cons, hr, hh]
  · simp [recordsWithDigest, List.filter_cons, hr]

theorem bucketOf_insertAll (files : List FSFile) (d : List (Nat × List FileRec)) (h : Nat) :
    bucketOf (insertAll d files) h = bucketOf d h ++ recordsWithDigest files h := by
  induction files generalizing d with
  | nil => simp [insertAll, recordsWithDigest]
  | cons f fs ih =>
    rw [insertAll_cons, ih, recordsWithDigest_cons]
    unfold hashStep calculate_file_hash
    by_cases hr : f.readable
    · by_cases hh : md5 f.content = h
      · rw [hh] at *
        simp [hr, hh, bucketOf_bucketAppend_self]
      · simp [hr, hh, bucketOf_bucketAppend_ne _ _ _ _ fun hx => hh hx.symm]
    · simp [hr]

theorem keysOf_insertAll (files : List FSFile) (d : List (Nat × List FileRec)) :
    keysOf (insertAll d files) = (digestsOf files).foldl dedupStep (keysOf d) := by
  induction files generalizing d with
  | nil => simp [insertAll, digestsOf]
  | cons f fs ih =>
    rw [insertAll_cons, ih, digestsOf_cons]
    unfold hashStep calculate_file_hash
    by_cases hr : f.readable
    · simp only [hr, if_true, List.foldl_cons]
      congr 1
      rw [keysOf_bucketAppend]
      rfl
    · simp [hr]

theorem mem_foldl_dedupStep (l : List Nat) (acc : List Nat) (a : Nat) :
    a ∈ l.foldl dedupStep acc ↔ a ∈ acc ∨ a ∈ l := by
  induction l generalizing acc with
  | nil => simp
  | cons x xs ih =>
    rw [List.foldl_cons, ih]
    unfold dedupStep
    by_cases hx : x ∈ acc
    · simp only [hx, if_true, List.mem_cons]
      constructor
      · rintro (h | h)
        · exact Or.inl h
        · exact Or.inr (Or.inr h)
      · rintro (h | h | h)
        · exact Or.inl h
        · exact Or.inl (h ▸ hx)
        · exact Or.inr h
    · simp only [hx, if_false, List.mem_append, List.mem_singleton, List.mem_cons]
      tauto

theorem nodup_foldl_dedupStep (l : List Nat) (acc : List Nat) (h : acc.Nodup) :
    (l.foldl dedupStep acc).Nodup := by
  induction l generalizing acc with
  | nil => exact h
  | cons x xs ih =>
    rw [List.foldl_cons]
    apply ih
    unfold dedupStep
    by_cases hx : x ∈ acc
    · simpa [hx] using h
    · simp only [hx, if_false]
      simpa [List.nodup_append] using ⟨h, hx⟩

theorem keysOf_insertAll_nodup (files : List FSFile) (d : List (Nat × List FileRec))
    (h : (keysOf d).Nodup) : (keysOf (insertAll d files)).Nodup := by
  rw [keysOf_insertAll]
  exact nodup_foldl_dedupStep _ _ h

theorem bucketOf_eq_of_mem (d : List (Nat × List FileRec)) (hnd : (keysOf d).Nodup)
    (k : Nat) (B : List FileRec) (hm : (k, B) ∈ d) : bucketOf d k = B := by
  induction d with
  | nil => cases hm
  | cons p rest ih =>
    obtain ⟨k1, vs⟩ := p
    rcases List.mem_cons.mp hm with he | ht
    · injection he with h1 h2
      subst h1
      subst h2
      simp [bucketOf]
    · have hk1 : k1 ≠ k := by
        intro hk
        subst hk
        have : k1 ∈ keysOf rest := List.mem_map.mpr ⟨(k1, B), ht, rfl⟩
        exact (List.nodup_cons.mp hnd).1 this
      simp only [bucketOf, hk1, if_false]
      exact ih (List.nodup_cons.mp hnd).2 ht

theorem mem_of_bucketOf_ne_nil (d : List (Nat × List FileRec)) (k : Nat)
    (hne : bucketOf d k ≠ []) : (k, bucketOf d k) ∈ d := by
  induction d with
  | nil => simp [bucketOf] at hne
  | cons p rest ih =>
    obtain ⟨k1, vs⟩ := p
    by_cases hk : k1 = k
    · subst hk
      simp [bucketOf]
    · simp only [bucketOf, hk, if_false] at hne ⊢
      exact List.mem_cons_of_mem _ (ih hne)

/-! ### Lemmas about the resolution sort -/

theorem insertStable_perm (r : FileRec) (l : List FileRec) :
    (insertStable r l).Perm (r :: l) := by
  induction l with
  | nil => exact List.Perm.refl _
  | cons x xs ih =>
    unfold insertStable
    by_cases h : r.modified ≤ x.modified
    · simp [h]
    · simp only [h, if_false]
      exact (ih.cons x).trans (List.Perm.swap r x xs)

theorem sortByModified_perm (l : List FileRec) : (sortByModified l).Perm l := by
  induction l with
  | nil => exact List.Perm.refl _
  | cons x xs ih => exact (insertStable_perm x (sortByModified xs)).trans (ih.cons x)

theorem insertStable_sorted (r : FileRec) (l : List FileRec)
    (h : l.Pairwise fun a b => a.modified ≤ b.modified) :
    (insertStable r l).Pairwise fun a b => a.modified ≤ b.modified := by
  induction l with
  | nil => simp [insertStable]
  | cons x xs ih =>
    obtain ⟨hx, hxs⟩ := List.pairwise_cons.mp h
    unfold insertStable
    by_cases hr : r.modified ≤ x.modified
    · simp only [hr, if_true]
      refine List.pairwise_cons.mpr ⟨?_, h⟩
      intro b hb
      rcases List.mem_cons.mp hb with rfl | hb2
      · exact hr
      · exact le_trans hr (hx b hb2)
    · simp only [hr, if_false]
      refine List.pairwise_cons.mpr ⟨?_, ih hxs⟩
      intro b hb
      rcases List.mem_cons.mp ((insertStable_perm r xs).mem_iff.mp hb) with rfl | hb2
      · omega
      · exact hx b hb2

theorem sortByModified_sorted (l : List FileRec) :
    (sortByModified l).Pairwise fun a b => a.modified ≤ b.modified := by
  induction l with
  | nil => simp [sortByModified]
  | cons x xs ih => exact insertStable_sorted x _ ih

theorem insertStable_of_le (r : FileRec) (l : List FileRec)
    (h : ∀ b ∈ l, r.modified ≤ b.modified) : insertStable r l = r :: l := by
  cases l with
  | nil => rfl
  | cons x xs => simp [insertStable, h x (List.mem_cons_self x xs)]

/-- Stability on an already-ordered bucket: the source's stable sort leaves
it unchanged, so members with equal modification times keep their
insertion order. -/
theorem sortByModified_of_sorted (l : List FileRec)
    (h : l.Pairwise fun a b => a.modified ≤ b.modified) : sortByModified l = l := by
  induction l with
  | nil => rfl
  | cons x xs ih =>
    obtain ⟨hx, hxs⟩ := List.pairwise_cons.mp h
    show insertStable x (sortByModified xs) = x :: xs
    rw [ih hxs]
    exact insertStable_of_le x xs hx

theorem sortByModified_ne_nil (l : List FileRec) (h : l ≠ []) : sortByModified l ≠ [] := by
  intro h0
  have hp := sortByModified_perm l
  rw [h0] at hp
  exact h hp.symm.eq_nil

theorem lastD_mem (l : List FileRec) (h : l ≠ []) : lastD l ∈ l := by
  induction l with
  | nil => cases h rfl
  | cons x xs ih =>
    cases xs with
    | nil => simp [lastD]
    | cons y ys =>
      have : lastD (x :: y :: ys) = lastD (y :: ys) := rfl
      rw [this]
      exact List.mem_cons_of_mem x (ih (by simp))

theorem dropLast_append_lastD (l : List FileRec) (h : l ≠ []) :
    l.dropLast ++ [lastD l] = l := by
  induction l with
  | nil => cases h rfl
  | cons x xs ih =>
    cases xs with
    | nil => rfl
    | cons y ys =>
      have h2 := ih (by simp)
      have hd : (x :: y :: ys).dropLast = x :: (y :: ys).dropLast := rfl
      have hl : lastD (x :: y :: ys) = lastD (y :: ys) := rfl
      rw [hd, hl, List.cons_append, h2]

theorem lastD_cons_dropLast_perm (l : List FileRec) (h : l ≠ []) :
    (lastD l :: l.dropLast).Perm l := by
  conv_rhs => rw [← dropLast_append_lastD l h]
  exact (List.perm_append_singleton _ _).symm

theorem lastD_max (l : List FileRec) (hp : l.Pairwise fun a b => a.modified ≤ b.modified)
    (r : FileRec) (hr : r ∈ l) : r.modified ≤ (lastD l).modified := by
  induction l with
  | nil => cases hr
  | cons x xs ih =>
    obtain ⟨hx, hxs⟩ := List.pairwise_cons.mp hp
    cases xs with
    | nil =>
      rcases List.mem_cons.mp hr with rfl | h0
      · exact le_refl _
      · cases h0
    | cons y ys =>
      have hl : lastD (x :: y :: ys) = lastD (y :: ys) := rfl
      rw [hl]
      rcases List.mem_cons.mp hr with rfl | hr2
      · exact hx _ (lastD_mem (y :: ys) (by simp))
      · exact ih hxs hr2

/-- The kept member and the removal candidates of a nonempty bucket
partition it, under either policy. -/
theorem keeper_cons_cands_perm (ko : Bool) (l : List FileRec) (h : l ≠ []) :
    (keeperOf ko l :: candsOf ko l).Perm l := by
  have hs := sortByModified_ne_nil l h
  have hperm := sortByModified_perm l
  cases ko with
  | true =>
    unfold keeperOf candsOf
    simp only [if_true]
    cases hm : sortByModified l with
    | nil => cases hs hm
    | cons y ys =>
      simp only [List.headD_cons, List.tail_cons]
      rw [← hm]
      exact hperm
  | false =>
    have hk : keeperOf false l = lastD (sortByModified l) := rfl
    have hc : candsOf false l = (sortByModified l).dropLast := rfl
    rw [hk, hc]
    exact (lastD_cons_dropLast_perm _ hs).trans hperm

theorem keeper_mem (ko : Bool) (l : List FileRec) (h : l ≠ []) : keeperOf ko l ∈ l :=
  (keeper_cons_cands_perm ko l h).mem_iff.mp (List.mem_cons_self _ _)

theorem cands_subset (ko : Bool) (l : List FileRec) (h : l ≠ []) (r : FileRec)
    (hr : r ∈ candsOf ko l) : r ∈ l :=
  (keeper_cons_cands_perm ko l h).mem_iff.mp (List.mem_cons_of_mem _ hr)

/-- Under `keep_oldest` the kept member has minimal modification time. -/
theorem keeper_oldest_min (l : List FileRec) (h : l ≠ []) (r : FileRec) (hr : r ∈ l) :
    (keeperOf true l).modified ≤ r.modified := by
  have hsorted := sortByModified_sorted l
  have hs := sortByModified_ne_nil l h
  have hrs : r ∈ sortByModified l := (sortByModified_perm l).mem_iff.mpr hr
  cases hm : sortByModified l with
  | nil => cases hs hm
  | cons y ys =>
    rw [hm] at hrs hsorted
    have hk : keeperOf true l = y := by
      unfold keeperOf
      rw [hm]
      rfl
    rw [hk]
    rcases List.mem_cons.mp hrs with rfl | hr2
    · exact le_refl _
    · exact (List.pairwise_cons.mp hsorted).1 r hr2

/-- Under `keep_newest` the kept member has maximal modification time. -/
theorem keeper_newest_max (l : List FileRec) (h : l ≠ []) (r : FileRec) (hr : r ∈ l) :
    r.modified ≤ (keeperOf false l).modified := by
  have hsorted := sortByModified_sorted l
  have hrs : r ∈ sortByModified l := (sortByModified_perm l).mem_iff.mpr hr
  have hk : keeperOf false l = lastD (sortByModified l) := rfl
  rw [hk]
  exact lastD_max _ hsorted r hrs

/-! ### Lemmas about the deletion loops -/

theorem processCands_cons (backend : Backend) (a : DelAcc) (c : FileRec) (cs : List FileRec) :
    processCands backend a (c :: cs) = processCands backend (delStep backend a c) cs := rfl

theorem processCands_attempts (backend : Backend) (cs : List FileRec) (a : DelAcc) :
    (processCands backend a cs).attempts = a.attempts ++ cs := by
  induction cs generalizing a with
  | nil => simp [processCands]
  | cons c cst ih =>
    rw [processCands_cons, ih]
    cases hb : backend c.path <;> simp [delStep, hb]

theorem processCands_deleted (backend : Backend) (cs : List FileRec) (a : DelAcc) :
    (processCands backend a cs).deleted = a.deleted ++ cs.filter (delOk backend) := by
  induction cs generalizing a with
  | nil => simp [processCands]
  | cons c cst ih =>
    rw [processCands_cons, ih, List.filter_cons]
    cases hb : backend c.path <;> simp [delStep, hb, delOk]

theorem processCands_errors (backend : Backend) (cs : List FileRec) (a : DelAcc) :
    (processCands backend a cs).errors = a.errors ++ cs.filterMap (delErr backend) := by
  induction cs generalizing a with
  | nil => simp [processCands]
  | cons c cst ih =>
    rw [processCands_cons, ih, List.filterMap_cons]
    cases hb : backend c.path <;> simp [delStep, hb, delErr]

theorem processCands_recovered (backend : Backend) (cs : List FileRec) (a : DelAcc) :
    (processCands backend a cs).recovered =
      a.recovered + ((cs.filter (delOk backend)).map fun r => r.size).sum := by
  induction cs generalizing a with
  | nil => simp [processCands]
  | cons c cst ih =>
    rw [processCands_cons, ih, List.filter_cons]
    cases hb : backend c.path <;> simp [delStep, hb, delOk] <;> omega

theorem processCands_nDeleted (backend : Backend) (cs : List FileRec) (a : DelAcc) :
    (processCands backend a cs).nDeleted =
      a.nDeleted + (cs.filter (delOk backend)).length := by
  induction cs generalizing a with
  | nil => simp [processCands]
  | cons c cst ih =>
    rw [processCands_cons, ih, List.filter_cons]
    cases hb : backend c.path <;> simp [delStep, hb, delOk] <;> omega

theorem allCands_cons (ko : Bool) (p : Nat × List FileRec) (ps : List (Nat × List FileRec)) :
    allCands ko (p :: ps) = candsOf ko p.2 ++ allCands ko ps := by
  simp [allCands]

theorem delLoop_attempts (backend : Backend) (ko : Bool) (dups : List (Nat × List FileRec))
    (a : DelAcc) :
    (dups.foldl (fun a p => processCands backend a (candsOf ko p.2)) a).attempts =
      a.attempts ++ allCands ko dups := by
  induction dups generalizing a with
  | nil => simp [allCands]
  | cons p ps ih =>
    rw [List.foldl_cons, ih, allCands_cons, processCands_attempts, List.append_assoc]

theorem delLoop_deleted (backend : Backend) (ko : Bool) (dups : List (Nat × List FileRec))
    (a : DelAcc) :
    (dups.foldl (fun a p => processCands backend a (candsOf ko p.2)) a).deleted =
      a.deleted ++ (allCands ko dups).filter (delOk backend) := by
  induction dups generalizing a with
  | nil => simp [allCands]
  | cons p ps ih =>
    rw [List.foldl_cons, ih, allCands_cons, processCands_deleted, List.filter_append,
      List.append_assoc]

theorem delLoop_errors (backend : Backend) (ko : Bool) (dups : List (Nat × List FileRec))
    (a : DelAcc) :
    (dups.foldl (fun a p => processCands backend a (candsOf ko p.2)) a).errors =
      a.errors ++ (allCands ko dups).filterMap (delErr backend) := by
  induction dups generalizing a with
  | nil => simp [allCands]
  | cons p ps ih =>
    rw [List.foldl_cons, ih, allCands_cons, processCands_errors, List.filterMap_append,
      List.append_assoc]

theorem delLoop_recovered (backend : Backend) (ko : Bool) (dups : List (Nat × List FileRec))
    (a : DelAcc) :
    (dups.foldl (fun a p => processCands backend a (candsOf ko p.2)) a).recovered =
      a.recovered + (((allCands ko dups).filter (delOk backend)).map fun r => r.size).sum := by
  induction dups generalizing a with
  | nil => simp [allCands]
  | cons p ps ih =>
    rw [List.foldl_cons, ih, allCands_cons, processCands_recovered, List.filter_append,
      List.map_append, List.sum_append]
    omega

theorem delLoop_nDeleted (backend : Backend) (ko : Bool) (dups : List (Nat × List FileRec))
    (a : DelAcc) :
    (dups.foldl (fun a p => processCands backend a (candsOf ko p.2)) a).nDeleted =
      a.nDeleted + ((allCands ko dups).filter (delOk backend)).length := by
  induction dups generalizing a with
  | nil => simp [allCands]
  | cons p ps ih =>
    rw [List.foldl_cons, ih, allCands_cons, processCands_nDeleted, List.filter_append,
      List.length_append]
    omega

/-- Full characterization of `delete_duplicates` when duplicate groups
exist: the attempted deletions are exactly the removal candidates of every
group in order, the returned list and the recovered space are the
successful ones, the error reports are the failing ones. -/
theorem delete_duplicates_of_ne_nil (s : DetectorState) (ko : Bool) (backend : Backend)
    (h : s.duplicates ≠ []) :
    delete_duplicates s ko backend =
      ⟨some ((allCands ko s.duplicates).filter (delOk backend)),
       { s with stats := { s.stats with
           files_deleted := s.stats.files_deleted +
             ((allCands ko s.duplicates).filter (delOk backend)).length,
           space_recovered :=
             (((allCands ko s.duplicates).filter (delOk backend)).map fun r => r.size).sum } },
       (allCands ko s.duplicates).filterMap (delErr backend),
       allCands ko s.duplicates⟩ := by
  unfold delete_duplicates
  rw [if_neg h]
  have h1 := delLoop_deleted backend ko s.duplicates initAcc
  have h2 := delLoop_errors backend ko s.duplicates initAcc
  have h3 := delLoop_attempts backend ko s.duplicates initAcc
  have h4 := delLoop_recovered backend ko s.duplicates initAcc
  have h5 := delLoop_nDeleted backend ko s.duplicates initAcc
  simp only [h1, h2, h3, h4, h5]
  simp [initAcc]

theorem delete_duplicates_of_nil (s : DetectorState) (ko : Bool) (backend : Backend)
    (h : s.duplicates = []) :
    delete_duplicates s ko backend = ⟨none, s, [], []⟩ := by
  unfold delete_duplicates
  rw [if_pos h]

/-! ### Characterization of a successful scan -/

/-- On a root that exists and is a directory, a recursive scan returns
exactly the source's reassignment of the instance fields. -/
theorem scan_eq_ok (s : DetectorState) (fs : FS) (hdir : fs.rootIsDir = true) :
    scan_for_duplicates s fs true = Except.ok
      { file_hashes := insertAll s.file_hashes fs.files
        duplicates := (insertAll s.file_hashes fs.files).filter fun p => 1 < p.2.length
        stats :=
          { total_files := fs.files.length
            unique_files := (insertAll s.file_hashes fs.files).length
            duplicate_groups :=
              ((insertAll s.file_hashes fs.files).filter fun p => 1 < p.2.length).length
            total_duplicates :=
              (((insertAll s.file_hashes fs.files).filter fun p => 1 < p.2.length).map
                fun p => p.2.length - 1).sum
            space_wasted := s.stats.space_wasted +
              (((insertAll s.file_hashes fs.files).filter fun p => 1 < p.2.length).map
                fun p => (p.2.headD noRec).size * (p.2.length - 1)).sum
            files_deleted := s.stats.files_deleted
            space_recovered := s.stats.space_recovered } } := by
  unfold scan_for_duplicates enumerate
  simp [hdir]

/-- Every entry of the index built from a fresh scan holds exactly the
records of the successfully fingerprinted files with that digest. -/
theorem entry_records (files : List FSFile) (p : Nat × List FileRec)
    (hp : p ∈ insertAll [] files) : p.2 = recordsWithDigest files p.1 := by
  obtain ⟨k, B⟩ := p
  have hnd : (keysOf (insertAll [] files)).Nodup :=
    keysOf_insertAll_nodup files [] (by simp [keysOf])
  have hb := bucketOf_eq_of_mem _ hnd k B hp
  rw [← hb, bucketOf_insertAll]
  simp [bucketOf]

theorem one_lt_length_of_mem_ne {α : Type} (l : List α) (a b : α) (ha : a ∈ l) (hb : b ∈ l)
    (hab : a ≠ b) : 1 < l.length := by
  match l with
  | [] => cases ha
  | [x] =>
    rw [List.mem_singleton] at ha hb
    exact absurd (ha.trans hb.symm) hab
  | x :: y :: ys => simp

theorem firstDedup_nodup (l : List Nat) : (firstDedup l).Nodup :=
  nodup_foldl_dedupStep l [] List.nodup_nil

theorem firstDedup_toFinset (l : List Nat) : (firstDedup l).toFinset = l.toFinset := by
  ext a
  simp [List.mem_toFinset, firstDedup, mem_foldl_dedupStep]

theorem firstDedup_length (l : List Nat) : (firstDedup l).length = l.toFinset.card := by
  rw [← List.toFinset_card_of_nodup (firstDedup_nodup l), firstDedup_toFinset]

/-- The keys of a fresh scan's index are the distinct digests in first-seen
order. -/
theorem keysOf_scan (files : List FSFile) :
    keysOf (insertAll [] files) = firstDedup (digestsOf files) := by
  rw [keysOf_insertAll]
  rfl

theorem length_filter_keys (d : List (Nat × List FileRec)) (pb : Nat × List FileRec → Bool)
    (qb : Nat → Bool) (h : ∀ p ∈ d, pb p = qb p.1) :
    (d.filter pb).length = ((keysOf d).filter qb).length := by
  induction d with
  | nil => rfl
  | cons p rest ih =>
    have hp := h p (List.mem_cons_self p rest)
    have hrest : ∀ q ∈ rest, pb q = qb q.1 := fun q hq => h q (List.mem_cons_of_mem _ hq)
    have hkeys : keysOf (p :: rest) = p.1 :: keysOf rest := rfl
    rw [hkeys, List.filter_cons, List.filter_cons, ← hp]
    cases hb : pb p <;> simp [hb, ih hrest]

theorem filter_firstDedup_card (l : List Nat) (qb : Nat → Bool) :
    ((firstDedup l).filter qb).length = (l.toFinset.filter fun a => qb a = true).card := by
  have hnd := (firstDedup_nodup l).filter qb
  rw [← List.toFinset_card_of_nodup hnd, List.toFinset_filter]
  congr 1
  rw [firstDedup_toFinset]

theorem length_filterMap_delErr (backend : Backend) (l : List FileRec) :
    (l.filterMap (delErr backend)).length = (l.filter fun r => !delOk backend r).length := by
  induction l with
  | nil => rfl
  | cons c cs ih =>
    rw [List.filterMap_cons, List.filter_cons]
    cases hb : backend c.path <;> simp [delErr, delOk, hb, ih]

theorem delete_duplicates_attempts (s : DetectorState) (ko : Bool) (backend : Backend) :
    (delete_duplicates s ko backend).attempts = allCands ko s.duplicates := by
  by_cases h : s.duplicates = []
  · rw [delete_duplicates_of_nil s ko backend h, h]
    rfl
  · rw [delete_duplicates_of_ne_nil s ko backend h]

theorem candsOf_nil (ko : Bool) : candsOf ko [] = [] := by
  cases ko <;> rfl

theorem cands_paths_subset (ko : Bool) (l : List FileRec) (x : String)
    (hx : x ∈ (candsOf ko l).map fun r => r.path) : x ∈ l.map fun r => r.path := by
  by_cases h : l = []
  · subst h
    rw [candsOf_nil] at hx
    cases hx
  · obtain ⟨r, hr, rfl⟩ := List.mem_map.mp hx
    exact List.mem_map_of_mem _ (cands_subset ko l h r hr)

theorem allCands_paths_subset (ko : Bool) (dups : List (Nat × List FileRec)) (x : String)
    (hx : x ∈ (allCands ko dups).map fun r => r.path) :
    x ∈ (dups.flatMap fun p => p.2).map fun r => r.path := by
  obtain ⟨r, hr, rfl⟩ := List.mem_map.mp hx
  obtain ⟨p, hp, hrp⟩ := List.mem_flatMap.mp hr
  by_cases h : p.2 = []
  · rw [h, candsOf_nil] at hrp
    cases hrp
  · exact List.mem_map_of_mem _ (List.mem_flatMap.mpr ⟨p, hp, cands_subset ko p.2 h r hrp⟩)

/-- The kept member of any group never occurs among the removal candidates
of any group, provided no path occurs twice across the groups. -/
theorem keeper_path_not_in_allCands (ko : Bool) :
    ∀ dups : List (Nat × List FileRec),
      ((dups.flatMap fun p => p.2).map fun r => r.path).Nodup →
      ∀ p ∈ dups, p.2 ≠ [] →
      (keeperOf ko p.2).path ∉ (allCands ko dups).map fun r => r.path := by
  intro dups
  induction dups with
  | nil =>
    intro _ p hp
    cases hp
  | cons q qs ih =>
    intro hnd p hp hne hmem
    have hsplit : (((q :: qs).flatMap fun p => p.2).map fun r => r.path) =
        (q.2.map fun r => r.path) ++ ((qs.flatMap fun p => p.2).map fun r => r.path) := by
      simp
    rw [hsplit] at hnd
    rw [List.nodup_append] at hnd
    obtain ⟨hn1, hn2, hdisj⟩ := hnd
    rw [allCands_cons, List.map_append] at hmem
    rcases List.mem_cons.mp hp with rfl | hp2
    · rcases List.mem_append.mp hmem with hm1 | hm2
      · have hperm := (keeper_cons_cands_perm ko p.2 hne).map fun r => r.path
        have hndk := hperm.nodup_iff.mpr hn1
        rw [List.map_cons] at hndk
        exact (List.nodup_cons.mp hndk).1 hm1
      · exact hdisj (List.mem_map_of_mem _ (keeper_mem ko p.2 hne))
          (allCands_paths_subset ko qs _ hm2)
    · rcases List.mem_append.mp hmem with hm1 | hm2
      · have h1 : (keeperOf ko p.2).path ∈ q.2.map fun r => r.path :=
          cands_paths_subset ko q.2 _ hm1
        have h2 : (keeperOf ko p.2).path ∈ (qs.flatMap fun p => p.2).map fun r => r.path := by
          refine List.mem_map_of_mem _ (List.mem_flatMap.mpr ⟨p, hp2, ?_⟩)
          exact keeper_mem ko p.2 hne
        exact hdisj h1 h2
      · exact ih hn2 p hp2 hne hm2

/-! ### Claim theorems -/

/-- C9 counterexample: the claim asserts that a root which does not exist
or is not a directory makes the engine fail with a fatal error before any
work begins.  The source performs no such validation: a recursive scan on
a bad root completes successfully (with zero files), so the claimed
always-failing behaviour is false. -/
theorem config_error_counterexample : ¬ConfigErrorClaim := by
  intro h
  have h1 := h badRootFS rfl true
  have h2 : scanOk (scan_for_duplicates initState badRootFS true) = true := by decide
  rw [h1] at h2
  cases h2

/-- C9 (amended): the engine never validates the root.  With recursive
enumeration a nonexistent or non-directory root produces a successful scan
over zero files (the state stays fresh); only the non-recursive `iterdir`
path raises, and that happens at scan time, not at construction.  The
existence check in the source lives in the demo `main`, outside the
engine. -/
theorem config_error_amended (fs : FS) (hbad : fs.rootIsDir = false) :
    scan_for_duplicates initState fs true = Except.ok initState ∧
    scan_for_duplicates initState fs false = Except.error PyErr.fileNotFoundError := by
  constructor
  · unfold scan_for_duplicates enumerate
    simp [hbad, insertAll, initState, initStats]
  · unfold scan_for_duplicates enumerate
    simp [hbad]

/-- Witness for the amended C9 at a concrete bad root. -/
theorem config_error_witness :
    badRootFS.rootIsDir = false ∧
    scan_for_duplicates initState badRootFS true = Except.ok initState ∧
    scan_for_duplicates initState badRootFS false = Except.error PyErr.fileNotFoundError :=
  ⟨rfl, (config_error_amended badRootFS rfl).1, (config_error_amended badRootFS rfl).2⟩

/-- C10: with no duplicate groups, `delete_duplicates` returns `None` (not
an empty list) and leaves the whole state, statistics included, unchanged;
otherwise it returns exactly the records whose deletion succeeded, in
group processing order, so failed deletions are absent from the returned
sequence. -/
theorem delete_return_value (s : DetectorState) (ko : Bool) (backend : Backend) :
    (s.duplicates = [] → delete_duplicates s ko backend = ⟨none, s, [], []⟩) ∧
    (s.duplicates ≠ [] →
      (delete_duplicates s ko backend).result =
        some ((allCands ko s.duplicates).filter (delOk backend)) ∧
      ∀ l, (delete_duplicates s ko backend).result = some l →
        ∀ r ∈ l, delOk backend r = true) := by
  constructor
  · intro h
    exact delete_duplicates_of_nil s ko backend h
  · intro h
    rw [delete_duplicates_of_ne_nil s ko backend h]
    refine ⟨rfl, ?_⟩
    intro l hl r hr
    have hleq := Option.some.inj hl
    rw [← hleq] at hr
    exact List.of_mem_filter hr

/-- Witness for C10: both branches at concrete inputs — a fresh state
returns `None` unchanged; a state with one group and a failing backend
returns only the successful deletions. -/
theorem delete_return_value_witness :
    initState.duplicates = [] ∧
    delete_duplicates initState true okBackend = ⟨none, initState, [], []⟩ ∧
    trioState.duplicates ≠ [] ∧
    (delete_duplicates trioState true failBackend).result =
      some ((allCands true trioState.duplicates).filter (delOk failBackend)) := by
  refine ⟨rfl, (delete_return_value initState true okBackend).1 rfl, by decide, ?_⟩
  exact ((delete_return_value trioState true failBackend).2 (by decide)).1

/-- C3: partial-failure isolation.  For every state and any two backends,
the trace of deletion attempts equals the full candidate list of every
group — independent of any failures the backend produces — every removal
candidate of every group is attempted, and the kept member of each
(nonempty) group is never passed to the backend (given globally distinct
paths). -/
theorem deletion_isolation (s : DetectorState) (ko : Bool) (b1 b2 : Backend)
    (hnd : ((s.duplicates.flatMap fun p => p.2).map fun r => r.path).Nodup) :
    (delete_duplicates s ko b1).attempts = allCands ko s.duplicates ∧
    (delete_duplicates s ko b1).attempts = (delete_duplicates s ko b2).attempts ∧
    (∀ p ∈ s.duplicates, ∀ r ∈ candsOf ko p.2, r ∈ (delete_duplicates s ko b1).attempts) ∧
    (∀ p ∈ s.duplicates, p.2 ≠ [] →
      keeperOf ko p.2 ∉ (delete_duplicates s ko b1).attempts) := by
  have ha1 := delete_duplicates_attempts s ko b1
  have ha2 := delete_duplicates_attempts s ko b2
  refine ⟨ha1, ha1.trans ha2.symm, ?_, ?_⟩
  · intro p hp r hr
    rw [ha1]
    exact List.mem_flatMap.mpr ⟨p, hp, hr⟩
  · intro p hp hne hmem
    rw [ha1] at hmem
    exact keeper_path_not_in_allCands ko s.duplicates hnd p hp hne
      (List.mem_map_of_mem _ hmem)

/-- Witness for C3 at a concrete three-member group with a backend that
fails on one candidate. -/
theorem deletion_isolation_witness :
    ((trioState.duplicates.flatMap fun p => p.2).map fun r => r.path).Nodup ∧
    (delete_duplicates trioState true failBackend).attempts =
      allCands true trioState.duplicates ∧
    (delete_duplicates trioState true failBackend).attempts =
      (delete_duplicates trioState true okBackend).attempts ∧
    keeperOf true [trioRec1, trioRec2, trioRec3] ∉
      (delete_duplicates trioState true failBackend).attempts := by
  have h := deletion_isolation trioState true failBackend okBackend (by decide)
  exact ⟨by decide, h.1, h.2.1, h.2.2.2 (9, [trioRec1, trioRec2, trioRec3]) (by decide) (by decide)⟩

/-- C7: resolution accounts for every group member.  Each nonempty group is
partitioned into its kept member and its removal candidates; the returned
sequence is exactly the candidates whose deletion succeeded; the error
reports are exactly the failing candidates, each carrying the backend's
actual error; recovered bytes are summed over successful removals only;
and the number of error reports equals the number of failing candidates. -/
theorem resolution_outcomes (s : DetectorState) (ko : Bool) (backend : Backend)
    (hne : s.duplicates ≠ []) :
    (∀ p ∈ s.duplicates, p.2 ≠ [] → (keeperOf ko p.2 :: candsOf ko p.2).Perm p.2) ∧
    (delete_duplicates s ko backend).result =
      some ((allCands ko s.duplicates).filter (delOk backend)) ∧
    (delete_duplicates s ko backend).errors =
      (allCands ko s.duplicates).filterMap (delErr backend) ∧
    (∀ r e, (r, e) ∈ (delete_duplicates s ko backend).errors →
      backend r.path = Except.error e) ∧
    (delete_duplicates s ko backend).state.stats.space_recovered =
      (((delete_duplicates s ko backend).result.getD []).map fun r => r.size).sum ∧
    (delete_duplicates s ko backend).errors.length =
      ((allCands ko s.duplicates).filter fun r => !delOk backend r).length ∧
    (∀ p ∈ s.duplicates, p.2 ≠ [] → ∀ r ∈ p.2,
      r = keeperOf ko p.2 ∨
      r ∈ (allCands ko s.duplicates).filter (delOk backend) ∨
      ∃ e, (r, e) ∈ (allCands ko s.duplicates).filterMap (delErr backend)) := by
  rw [delete_duplicates_of_ne_nil s ko backend hne]
  refine ⟨fun p hp h2 => keeper_cons_cands_perm ko p.2 h2, rfl, rfl, ?_, rfl, ?_, ?_⟩
  · intro r e hre
    obtain ⟨r0, hr0, heq⟩ := List.mem_filterMap.mp hre
    unfold delErr at heq
    cases hb : backend r0.path with
    | ok u =>
      rw [hb] at heq
      cases heq
    | error e0 =>
      rw [hb] at heq
      have h2 := Option.some.inj heq
      injection h2 with hr he
      subst hr
      subst he
      exact hb
  · exact length_filterMap_delErr backend _
  · intro p hp h2 r hr
    have hperm := keeper_cons_cands_perm ko p.2 h2
    rcases List.mem_cons.mp (hperm.mem_iff.mpr hr) with heq | hc
    · exact Or.inl heq
    · have hall : r ∈ allCands ko s.duplicates := List.mem_flatMap.mpr ⟨p, hp, hc⟩
      cases hb : backend r.path with
      | ok u =>
        refine Or.inr (Or.inl (List.mem_filter.mpr ⟨hall, ?_⟩))
        simp [delOk, hb]
      | error e =>
        refine Or.inr (Or.inr ⟨e, List.mem_filterMap.mpr ⟨r, hall, ?_⟩⟩)
        simp [delErr, hb]

/-- Witness for C7 at the concrete three-member group where deleting
b.txt fails: one success, one failure, recovered bytes count only the
success. -/
theorem resolution_outcomes_witness :
    trioState.duplicates ≠ [] ∧
    (delete_duplicates trioState true failBackend).result =
      some ((allCands true trioState.duplicates).filter (delOk failBackend)) ∧
    (delete_duplicates trioState true failBackend).state.stats.space_recovered =
      (((delete_duplicates trioState true failBackend).result.getD []).map
        fun r => r.size).sum ∧
    (delete_duplicates trioState true failBackend).errors.length =
      ((allCands true trioState.duplicates).filter fun r => !delOk failBackend r).length := by
  have h := resolution_outcomes trioState true failBackend (by decide)
  exact ⟨by decide, h.2.1, h.2.2.2.2.1, h.2.2.2.2.2.1⟩

/-- C2 counterexample: the claim says ties in `modifiedTime` are broken by
lexical path comparison.  The source sorts by `modified` alone with a
stable sort, so ties keep bucket insertion order.  In a group whose two
members share a timestamp but arrived in non-lexical order (b.txt before
a.txt), the source keeps b.txt and deletes a.txt, while the spec's order
would retain a.txt. -/
theorem resolution_order_counterexample :
    (delete_duplicates tieState true okBackend).result = some [raRec] ∧
    specResolutionSort [rbRec, raRec] = [raRec, rbRec] ∧
    (specResolutionSort [rbRec, raRec]).headD noRec = raRec ∧
    raRec ≠ rbRec := by decide

/-- C2 (amended): resolution sorts each group by `modifiedTime` ascending
with ties kept in the bucket's insertion order (the sort is stable, so an
already-ordered bucket is unchanged); under `keepOldest` the retained
member is the first of that order and has minimal `modifiedTime`, under
`keepNewest` the last with maximal `modifiedTime`; all other members
become removal candidates and exactly one member per group is retained. -/
theorem resolution_order_amended (B : List FileRec) (ko : Bool) (hne : B ≠ [])
    (hnd : B.Nodup) :
    (sortByModified B).Perm B ∧
    (sortByModified B).Pairwise (fun a b => a.modified ≤ b.modified) ∧
    (B.Pairwise (fun a b => a.modified ≤ b.modified) → sortByModified B = B) ∧
    (keeperOf ko B :: candsOf ko B).Perm B ∧
    keeperOf ko B ∉ candsOf ko B ∧
    (ko = true → ∀ r ∈ B, (keeperOf true B).modified ≤ r.modified) ∧
    (ko = false → ∀ r ∈ B, r.modified ≤ (keeperOf false B).modified) := by
  refine ⟨sortByModified_perm B, sortByModified_sorted B, sortByModified_of_sorted B,
    keeper_cons_cands_perm ko B hne, ?_,
    fun _ r hr => keeper_oldest_min B hne r hr,
    fun _ r hr => keeper_newest_max B hne r hr⟩
  have hperm := keeper_cons_cands_perm ko B hne
  have hndk : (keeperOf ko B :: candsOf ko B).Nodup := hperm.nodup_iff.mpr hnd
  exact (List.nodup_cons.mp hndk).1

/-- Witness for the amended C2 on a concrete tied group: the retained
member is the first-inserted one among equal timestamps. -/
theorem resolution_order_witness :
    ([rbRec, raRec] : List FileRec) ≠ [] ∧
    ([rbRec, raRec] : List FileRec).Nodup ∧
    (keeperOf true [rbRec, raRec] :: candsOf true [rbRec, raRec]).Perm [rbRec, raRec] ∧
    keeperOf true [rbRec, raRec] ∉ candsOf true [rbRec, raRec] ∧
    (keeperOf true [rbRec, raRec]).modified ≤ raRec.modified := by
  have h := resolution_order_amended [rbRec, raRec] true (by decide) (by decide)
  exact ⟨by decide, by decide, h.2.2.2.1, h.2.2.2.2.1, h.2.2.2.2.2.1 rfl raRec (by decide)⟩

/-- C8 counterexample: scanning is not idempotent on the detector
instance.  The source never clears `file_hashes` and accumulates
`space_wasted` with `+=`, so a second `scan_for_duplicates` call against
the unchanged one-file directory turns the lone file into a "duplicate" of
its first-scan record and inflates the statistics. -/
theorem rescan_counterexample :
    (scan_for_duplicates initState oneFileFS true).map (fun s => s.stats) =
      Except.ok ⟨1, 1, 0, 0, 0, 0, 0⟩ ∧
    ((scan_for_duplicates initState oneFileFS true).bind fun s1 =>
        scan_for_duplicates s1 oneFileFS true).map (fun s => s.stats) =
      Except.ok ⟨1, 1, 1, 1, 1, 0, 0⟩ ∧
    (⟨1, 1, 0, 0, 0, 0, 0⟩ : DetStats) ≠ ⟨1, 1, 1, 1, 1, 0, 0⟩ := by decide

/-- C8 (amended): a scan appends the records of the walked filesystem to
whatever the index already holds and adds this run's waste on top of the
accumulated `space_wasted`; `total_files` is overwritten.  Consequently a
re-run on a fresh detector instance reproduces identical groups and
statistics (the scan result is a function of the filesystem alone), but a
second call on the same instance compounds the index and statistics. -/
theorem rescan_amended (s : DetectorState) (fs : FS) (s2 : DetectorState)
    (hdir : fs.rootIsDir = true)
    (hscan : scan_for_duplicates s fs true = Except.ok s2) :
    (∀ h : Nat, bucketOf s2.file_hashes h =
      bucketOf s.file_hashes h ++ recordsWithDigest fs.files h) ∧
    s2.stats.space_wasted = s.stats.space_wasted +
      (s2.duplicates.map fun p => (p.2.headD noRec).size * (p.2.length - 1)).sum ∧
    s2.stats.total_files = fs.files.length := by
  rw [scan_eq_ok s fs hdir] at hscan
  have heq := Except.ok.inj hscan
  subst heq
  exact ⟨fun h => bucketOf_insertAll fs.files s.file_hashes h, rfl, rfl⟩

/-- Witness for the amended C8: the second scan of the one-file directory
appends the file's record to its digest's existing bucket. -/
theorem rescan_witness :
    oneFileFS.rootIsDir = true ∧
    scan_for_duplicates (scanOrEmpty oneFileFS) oneFileFS true =
      Except.ok (rescanState oneFileFS) ∧
    bucketOf (rescanState oneFileFS).file_hashes (md5 [0]) =
      bucketOf (scanOrEmpty oneFileFS).file_hashes (md5 [0]) ++
        recordsWithDigest oneFileFS.files (md5 [0]) ∧
    (rescanState oneFileFS).stats.total_files = oneFileFS.files.length := by
  have h := rescan_amended (scanOrEmpty oneFileFS) oneFileFS (rescanState oneFileFS) rfl
    (by decide)
  exact ⟨rfl, by decide, h.1 (md5 [0]), h.2.2⟩

/-- Membership in the duplicate groups of a fresh scan: a pair belongs to
`duplicates` exactly when its bucket is the full record list of its digest
and holds at least two records. -/
theorem scan_duplicates_iff (fs : FS) (k : Nat) (B : List FileRec) :
    (k, B) ∈ (insertAll [] fs.files).filter (fun p => 1 < p.2.length) ↔
      B = recordsWithDigest fs.files k ∧ 1 < B.length := by
  constructor
  · intro h
    have hm := List.mem_of_mem_filter h
    have hq := List.of_mem_filter h
    refine ⟨entry_records fs.files (k, B) hm, by simpa using hq⟩
  · rintro ⟨rfl, hlen⟩
    have hb : bucketOf (insertAll [] fs.files) k = recordsWithDigest fs.files k := by
      rw [bucketOf_insertAll]
      simp [bucketOf]
    have hne : bucketOf (insertAll [] fs.files) k ≠ [] := by
      rw [hb]
      intro h0
      rw [h0] at hlen
      simp at hlen
    have hmem := mem_of_bucketOf_ne_nil (insertAll [] fs.files) k hne
    rw [hb] at hmem
    exact List.mem_filter.mpr ⟨hmem, by simpa using hlen⟩

/-- C1 (amended): fingerprinting is a deterministic function of content,
and grouping is digest equality.  Two distinct readable files with
identical content receive equal digests and always land in one duplicate
group; two files with distinct digests never share a group.  Separation of
all differing contents cannot hold (see the counterexample): it holds
exactly up to MD5 collision. -/
theorem fingerprint_grouping_amended (fs : FS) (s2 : DetectorState)
    (hdir : fs.rootIsDir = true)
    (hscan : scan_for_duplicates initState fs true = Except.ok s2)
    (hpaths : (fs.files.map fun f => f.path).Nodup)
    (f g : FSFile) (hf : f ∈ fs.files) (hg : g ∈ fs.files)
    (hfr : f.readable = true) (hgr : g.readable = true) :
    (f.content = g.content → calculate_file_hash f = calculate_file_hash g) ∧
    (f ≠ g → f.content = g.content →
      ∃ p ∈ s2.duplicates, recOf f ∈ p.2 ∧ recOf g ∈ p.2) ∧
    (md5 f.content ≠ md5 g.content →
      ∀ p ∈ s2.duplicates, ¬(recOf f ∈ p.2 ∧ recOf g ∈ p.2)) := by
  rw [scan_eq_ok initState fs hdir] at hscan
  have heq := Except.ok.inj hscan
  subst heq
  have hfilterf : f ∈ fs.files.filter fun x => x.readable && (md5 x.content == md5 f.content) :=
    List.mem_filter.mpr ⟨hf, by simp [hfr]⟩
  refine ⟨?_, ?_, ?_⟩
  · intro hc
    unfold calculate_file_hash
    rw [hfr, hgr, hc]
  · intro hfg hc
    have hgd : md5 g.content = md5 f.content := by rw [hc]
    have hfilterg : g ∈ fs.files.filter
        fun x => x.readable && (md5 x.content == md5 f.content) :=
      List.mem_filter.mpr ⟨hg, by simp [hgr, hgd]⟩
    have hlen : 1 < (recordsWithDigest fs.files (md5 f.content)).length := by
      unfold recordsWithDigest
      rw [List.length_map]
      exact one_lt_length_of_mem_ne _ f g hfilterf hfilterg hfg
    refine ⟨(md5 f.content, recordsWithDigest fs.files (md5 f.content)),
      (scan_duplicates_iff fs _ _).mpr ⟨rfl, hlen⟩, ?_, ?_⟩
    · exact List.mem_map_of_mem _ hfilterf
    · exact List.mem_map_of_mem _ hfilterg
  · intro hne p hp hboth
    obtain ⟨k, B⟩ := p
    obtain ⟨hB, _⟩ := (scan_duplicates_iff fs k B).mp hp
    subst hB
    obtain ⟨hfm, hgm⟩ := hboth
    obtain ⟨f1, hf1, hfeq⟩ := List.mem_map.mp hfm
    obtain ⟨g1, hg1, hgeq⟩ := List.mem_map.mp hgm
    obtain ⟨hf1m, hf1q⟩ := List.mem_filter.mp hf1
    obtain ⟨hg1m, hg1q⟩ := List.mem_filter.mp hg1
    have hf1p : f1.path = f.path := congrArg FileRec.path hfeq
    have hg1p : g1.path = g.path := congrArg FileRec.path hgeq
    have hff : f1 = f := List.inj_on_of_nodup_map hpaths hf1m hf hf1p
    have hgg : g1 = g := List.inj_on_of_nodup_map hpaths hg1m hg hg1p
    rw [Bool.and_eq_true, beq_iff_eq] at hf1q hg1q
    rw [hff] at hf1q
    rw [hgg] at hg1q
    exact hne (hf1q.2.trans hg1q.2.symm)

/-- C1 counterexample: separation fails on the code.  The two distinct
128-byte contents of the classic MD5 collision receive the same digest,
so their files are placed in one duplicate group despite differing byte
content; the kernel verifies the collision by evaluating the embedded
MD5. -/
theorem separation_counterexample : ¬SeparationClaim := by
  intro h
  have hscan : scan_for_duplicates initState wangFS true = Except.ok (scanOrEmpty wangFS) := by
    decide
  have hex : ∃ p ∈ (scanOrEmpty wangFS).duplicates,
      recOf wangFile1 ∈ p.2 ∧ recOf wangFile2 ∈ p.2 := by decide
  obtain ⟨p, hp, h1, h2⟩ := hex
  exact h wangFS (scanOrEmpty wangFS) hscan wangFile1 (by decide) wangFile2 (by decide)
    (by decide) p hp ⟨h1, h2⟩

/-- Witness for the amended C1 on a directory with two identical one-byte
files: equal digests and one shared duplicate group. -/
theorem fingerprint_grouping_witness :
    sampleFS.rootIsDir = true ∧
    (sampleFS.files.map fun f => f.path).Nodup ∧
    (⟨"x.txt", [1], 3, true⟩ : FSFile) ≠ ⟨"y.txt", [1], 1, true⟩ ∧
    calculate_file_hash ⟨"x.txt", [1], 3, true⟩ =
      calculate_file_hash ⟨"y.txt", [1], 1, true⟩ ∧
    ∃ p ∈ (scanOrEmpty sampleFS).duplicates,
      recOf ⟨"x.txt", [1], 3, true⟩ ∈ p.2 ∧ recOf ⟨"y.txt", [1], 1, true⟩ ∈ p.2 := by
  have h := fingerprint_grouping_amended sampleFS (scanOrEmpty sampleFS) rfl (by decide)
    (by decide) ⟨"x.txt", [1], 3, true⟩ ⟨"y.txt", [1], 1, true⟩ (by decide) (by decide)
    rfl rfl
  exact ⟨rfl, by decide, by decide, h.1 rfl, h.2.1 (by decide) rfl⟩

/-- C6: a failed read is atomic and fully excluded.  `total_files` counts
every enumerated file; an unreadable file yields no digest at all (never a
partial one); every record in the index stems from a successfully read
file; and the distinct-digest statistic reflects only successfully
fingerprinted files. -/
theorem fingerprint_failure_atomicity (fs : FS) (s2 : DetectorState)
    (hdir : fs.rootIsDir = true)
    (hscan : scan_for_duplicates initState fs true = Except.ok s2) :
    s2.stats.total_files = fs.files.length ∧
    (∀ f ∈ fs.files, f.readable = false → calculate_file_hash f = none) ∧
    (∀ p ∈ s2.file_hashes, ∀ r ∈ p.2,
      ∃ f ∈ fs.files, f.readable = true ∧ md5 f.content = p.1 ∧ recOf f = r) ∧
    s2.stats.unique_files = (digestsOf fs.files).toFinset.card := by
  rw [scan_eq_ok initState fs hdir] at hscan
  have heq := Except.ok.inj hscan
  subst heq
  refine ⟨rfl, ?_, ?_, ?_⟩
  · intro f _ hun
    simp [calculate_file_hash, hun]
  · intro p hp r hr
    have hB := entry_records fs.files p hp
    rw [hB] at hr
    obtain ⟨f1, hf1, hfe⟩ := List.mem_map.mp hr
    obtain ⟨hm, hq⟩ := List.mem_filter.mp hf1
    rw [Bool.and_eq_true, beq_iff_eq] at hq
    exact ⟨f1, hm, hq.1, hq.2, hfe⟩
  · show (insertAll [] fs.files).length = (digestsOf fs.files).toFinset.card
    have h1 : (insertAll [] fs.files).length = (keysOf (insertAll [] fs.files)).length := by
      unfold keysOf
      rw [List.length_map]
    rw [h1, keysOf_scan]
    exact firstDedup_length _

/-- Witness for C6 on the sample directory containing an unreadable file:
it is counted in `total_files` but contributes no digest. -/
theorem fingerprint_failure_witness :
    sampleFS.rootIsDir = true ∧
    (scanOrEmpty sampleFS).stats.total_files = sampleFS.files.length ∧
    calculate_file_hash ⟨"w.txt", [3], 4, false⟩ = none ∧
    (scanOrEmpty sampleFS).stats.unique_files = (digestsOf sampleFS.files).toFinset.card := by
  have h := fingerprint_failure_atomicity sampleFS (scanOrEmpty sampleFS) rfl (by decide)
  exact ⟨rfl, h.1, h.2.1 ⟨"w.txt", [3], 4, false⟩ (by decide) rfl, h.2.2.2⟩

/-- C5 counterexample: the uniform-size invariant fails on the code.  The
digest space is finite (128 bits) while contents are unbounded, so some
two all-zero contents of different lengths collide; scanning a directory
holding those two files produces a duplicate group whose members have
different sizes, and nothing in the source validates sizes before using
the first member's size. -/
theorem group_invariants_counterexample : ¬UniformSizeClaim := by
  intro hclaim
  obtain ⟨n, m, hnm, hmd⟩ : ∃ n m : Nat, n ≠ m ∧
      md5 (List.replicate n 0) = md5 (List.replicate m 0) := by
    obtain ⟨n, m, hne, heq⟩ := Finite.exists_ne_map_eq_of_infinite
      fun j : Nat => (⟨md5 (List.replicate j 0), md5_lt _⟩ :
        Fin 340282366920938463463374607431768211456)
    exact ⟨n, m, hne, by simpa using congrArg Fin.val heq⟩
  have hrwd : recordsWithDigest
      [⟨"a.txt", List.replicate n 0, 0, true⟩, ⟨"b.txt", List.replicate m 0, 0, true⟩]
      (md5 (List.replicate n 0)) =
      [recOf ⟨"a.txt", List.replicate n 0, 0, true⟩,
       recOf ⟨"b.txt", List.replicate m 0, 0, true⟩] := by
    unfold recordsWithDigest
    simp [List.filter_cons, hmd]
  have hscan := scan_eq_ok initState
    ⟨true, [⟨"a.txt", List.replicate n 0, 0, true⟩,
            ⟨"b.txt", List.replicate m 0, 0, true⟩], []⟩ rfl
  have hp := (scan_duplicates_iff
      ⟨true, [⟨"a.txt", List.replicate n 0, 0, true⟩,
              ⟨"b.txt", List.replicate m 0, 0, true⟩], []⟩
      (md5 (List.replicate n 0))
      [recOf ⟨"a.txt", List.replicate n 0, 0, true⟩,
       recOf ⟨"b.txt", List.replicate m 0, 0, true⟩]).mpr ⟨hrwd.symm, by simp⟩
  have hsz := hclaim _ _ hscan _ hp
    (recOf ⟨"a.txt", List.replicate n 0, 0, true⟩) (by simp)
    (recOf ⟨"b.txt", List.replicate m 0, 0, true⟩) (by simp)
  simp [recOf, fsSize] at hsz
  exact hnm hsz

/-- C5 (amended): every duplicate group of a scan has at least two
members, all stemming from successfully fingerprinted files with the
group's digest; digests seen exactly once form no group and raise no
error.  Member sizes are not validated: the group's waste contribution
uses the first member's size whether or not the others match it. -/
theorem group_invariants_amended (fs : FS) (s2 : DetectorState)
    (hdir : fs.rootIsDir = true)
    (hscan : scan_for_duplicates initState fs true = Except.ok s2) :
    (∀ p ∈ s2.duplicates, 1 < p.2.length) ∧
    (∀ p ∈ s2.duplicates, ∀ r ∈ p.2,
      ∃ f ∈ fs.files, f.readable = true ∧ md5 f.content = p.1 ∧ recOf f = r) ∧
    (∀ h : Nat, (recordsWithDigest fs.files h).length = 1 →
      ∀ p ∈ s2.duplicates, p.1 ≠ h) ∧
    s2.stats.space_wasted =
      (s2.duplicates.map fun p => (p.2.headD noRec).size * (p.2.length - 1)).sum := by
  rw [scan_eq_ok initState fs hdir] at hscan
  have heq := Except.ok.inj hscan
  subst heq
  refine ⟨?_, ?_, ?_, ?_⟩
  · intro p hp
    obtain ⟨k, B⟩ := p
    exact ((scan_duplicates_iff fs k B).mp hp).2
  · intro p hp r hr
    obtain ⟨k, B⟩ := p
    obtain ⟨hB, _⟩ := (scan_duplicates_iff fs k B).mp hp
    subst hB
    obtain ⟨f1, hf1, hfe⟩ := List.mem_map.mp hr
    obtain ⟨hm, hq⟩ := List.mem_filter.mp hf1
    rw [Bool.and_eq_true, beq_iff_eq] at hq
    exact ⟨f1, hm, hq.1, hq.2, hfe⟩
  · intro h hone p hp
    obtain ⟨k, B⟩ := p
    obtain ⟨hB, hlen⟩ := (scan_duplicates_iff fs k B).mp hp
    intro hk
    subst hk
    rw [hB, hone] at hlen
    exact absurd hlen (by norm_num)
  · show initState.stats.space_wasted + _ = _
    simp [initState, initStats]

/-- Witness for the amended C5 at the sample directory: its one duplicate
group has two members and the waste statistic is the per-group sum. -/
theorem group_invariants_witness :
    sampleFS.rootIsDir = true ∧
    1 < [recOf ⟨"x.txt", [1], 3, true⟩, recOf ⟨"y.txt", [1], 1, true⟩].length ∧
    (scanOrEmpty sampleFS).stats.space_wasted =
      ((scanOrEmpty sampleFS).duplicates.map
        fun p => (p.2.headD noRec).size * (p.2.length - 1)).sum := by
  have h := group_invariants_amended sampleFS (scanOrEmpty sampleFS) rfl (by decide)
  refine ⟨rfl, ?_, h.2.2.2⟩
  exact h.1 (md5 [1], [recOf ⟨"x.txt", [1], 3, true⟩, recOf ⟨"y.txt", [1], 1, true⟩])
    (by decide)

/-- C4: the index summary after a scan.  `unique_files` counts the
distinct digests observed (singletons included), `duplicate_groups` counts
the digests carrying at least two fingerprinted records,
`total_duplicates` is the sum over groups of (members - 1), and the wasted
bytes are the sum over groups of (group size times (members - 1)), where
`gsize` names the common member size of each group (hypothesis `hsz`; the
source reads the first member's size and the claim presupposes members
share it, cf. the C5 analysis). -/
theorem summary_statistics (fs : FS) (s2 : DetectorState) (gsize : Nat → Nat)
    (hdir : fs.rootIsDir = true)
    (hscan : scan_for_duplicates initState fs true = Except.ok s2)
    (hsz : ∀ p ∈ s2.duplicates, ∀ r ∈ p.2, r.size = gsize p.1) :
    (get_duplicate_summary s2).unique_files = (digestsOf fs.files).toFinset.card ∧
    (get_duplicate_summary s2).duplicate_groups =
      ((digestsOf fs.files).toFinset.filter
        fun h => 1 < (recordsWithDigest fs.files h).length).card ∧
    (get_duplicate_summary s2).total_duplicates =
      (s2.duplicates.map fun p => p.2.length - 1).sum ∧
    (get_duplicate_summary s2).space_wasted_bytes =
      (s2.duplicates.map fun p => gsize p.1 * (p.2.length - 1)).sum := by
  rw [scan_eq_ok initState fs hdir] at hscan
  have heq := Except.ok.inj hscan
  subst heq
  refine ⟨?_, ?_, rfl, ?_⟩
  · show (insertAll [] fs.files).length = (digestsOf fs.files).toFinset.card
    have h1 : (insertAll [] fs.files).length = (keysOf (insertAll [] fs.files)).length := by
      unfold keysOf
      rw [List.length_map]
    rw [h1, keysOf_scan]
    exact firstDedup_length _
  · show ((insertAll [] fs.files).filter fun p => 1 < p.2.length).length = _
    have hcond : ∀ p ∈ insertAll [] fs.files,
        decide (1 < p.2.length) =
          decide (1 < (recordsWithDigest fs.files p.1).length) := by
      intro p hp
      rw [entry_records fs.files p hp]
    rw [length_filter_keys (insertAll [] fs.files) _
      (fun h => decide (1 < (recordsWithDigest fs.files h).length)) hcond]
    rw [keysOf_scan, filter_firstDedup_card]
    congr 1
    ext a
    simp
  · have hmap : (((insertAll [] fs.files).filter fun p => 1 < p.2.length).map
        fun p => (p.2.headD noRec).size * (p.2.length - 1)) =
        ((insertAll [] fs.files).filter fun p => 1 < p.2.length).map
          fun p => gsize p.1 * (p.2.length - 1) := by
      apply List.map_congr_left
      intro p hp
      obtain ⟨k, B⟩ := p
      obtain ⟨hB, hlen⟩ := (scan_duplicates_iff fs k B).mp hp
      have hne : B ≠ [] := by
        intro h0
        rw [h0] at hlen
        simp at hlen
      have hhead : B.headD noRec ∈ B := by
        cases B with
        | nil => cases hne rfl
        | cons x xs => exact List.mem_cons_self x xs
      have hs := hsz (k, B) hp (B.headD noRec) hhead
      simp only at hs ⊢
      rw [hs]
    show initState.stats.space_wasted +
        (((insertAll [] fs.files).filter fun p => 1 < p.2.length).map
          fun p => (p.2.headD noRec).size * (p.2.length - 1)).sum =
      (((insertAll [] fs.files).filter fun p => 1 < p.2.length).map
        fun p => gsize p.1 * (p.2.length - 1)).sum
    rw [hmap]
    simp [initState, initStats]

/-- Witness for C4 on the sample directory: two identical one-byte files
plus a distinct one and an unreadable one give 2 distinct digests, one
group of two, one duplicate, one wasted byte. -/
theorem summary_statistics_witness :
    sampleFS.rootIsDir = true ∧
    (get_duplicate_summary (scanOrEmpty sampleFS)).unique_files =
      (digestsOf sampleFS.files).toFinset.card ∧
    (get_duplicate_summary (scanOrEmpty sampleFS)).duplicate_groups =
      ((digestsOf sampleFS.files).toFinset.filter
        fun h => 1 < (recordsWithDigest sampleFS.files h).length).card ∧
    (get_duplicate_summary (scanOrEmpty sampleFS)).space_wasted_bytes =
      ((scanOrEmpty sampleFS).duplicates.map fun p => 1 * (p.2.length - 1)).sum := by
  have h := summary_statistics sampleFS (scanOrEmpty sampleFS) (fun _ => 1) rfl
    (by decide) (by decide)
  exact ⟨rfl, h.1, h.2.1, h.2.2.2⟩
